import Mathlib

/-!
# Verification of the Ruth federated-learning coordination core

A shallow embedding of the Ruth repository (client runtime, PRNG cursor,
signer, server gatekeeper, robust aggregator, asynchronous round collector)
together with proofs of the specification claims.

Modelling conventions:
* Python byte strings and text strings are modelled as `List ℕ` of byte
  values / Unicode code points (all strings involved are ASCII).
* Python floats are modelled as exact rationals `ℚ`.
* External libraries (hashlib SHA-256, base64) are implemented concretely:
  SHA-256 follows FIPS 180-4; base64 is the canonical RFC 4648 encoding
  (decoding is modelled as the canonical partial inverse).
* Fallible code returns `Option`/`Except`; stateful code passes state
  explicitly.
-/

namespace Ruth

/-! ## Hexadecimal encoding (`bytes.hex()` / `hashlib.hexdigest`) -/

/-- Code point of the lowercase hex digit for `n < 16` (as in Python's
`hexdigest`). -/
def hexDigitCode (n : ℕ) : ℕ := if n < 10 then 48 + n else 87 + n

/-- Lowercase hex rendering of a byte string, two digits per byte
(Python `bytes.hex()` / `hashlib.sha256(...).hexdigest()`). -/
def bytesToHexCodes : List ℕ → List ℕ
  | [] => []
  | b :: bs => hexDigitCode (b / 16) :: hexDigitCode (b % 16) :: bytesToHexCodes bs

/-- Value of a lowercase hex digit code point. -/
def hexVal (c : ℕ) : Option ℕ :=
  if 48 ≤ c ∧ c ≤ 57 then some (c - 48)
  else if 97 ≤ c ∧ c ≤ 102 then some (c - 87)
  else none

/-- Parse a lowercase hex string (as code points) back into bytes
(`bytes.fromhex`). -/
def hexCodesToBytes : List ℕ → Option (List ℕ)
  | [] => some []
  | c1 :: c2 :: rest =>
    match hexVal c1, hexVal c2, hexCodesToBytes rest with
    | some v1, some v2, some bs => some ((16 * v1 + v2) :: bs)
    | _, _, _ => none
  | _ => none

theorem hexVal_hexDigitCode : ∀ n < 16, hexVal (hexDigitCode n) = some n := by decide

theorem hexDigitCode_lt : ∀ n < 16, hexDigitCode n < 128 := by decide

theorem hexCodesToBytes_bytesToHexCodes :
    ∀ bs : List ℕ, (∀ b ∈ bs, b < 256) → hexCodesToBytes (bytesToHexCodes bs) = some bs := by
  intro bs
  induction bs with
  | nil => intro _; simp [bytesToHexCodes, hexCodesToBytes]
  | cons b bs ih =>
    intro h
    have hb : b < 256 := h b (List.mem_cons_self b bs)
    have h1 : b / 16 < 16 := by omega
    have h2 : b % 16 < 16 := by omega
    have htl := ih (fun x hx => h x (List.mem_cons_of_mem b hx))
    have hb' : 16 * (b / 16) + b % 16 = b := by omega
    simp only [bytesToHexCodes, hexCodesToBytes, hexVal_hexDigitCode _ h1,
      hexVal_hexDigitCode _ h2, htl, hb']

/-- `bytesToHexCodes` is injective on byte lists. -/
theorem bytesToHexCodes_inj {bs cs : List ℕ} (hb : ∀ b ∈ bs, b < 256)
    (hc : ∀ b ∈ cs, b < 256) (h : bytesToHexCodes bs = bytesToHexCodes cs) : bs = cs := by
  have h1 := hexCodesToBytes_bytesToHexCodes bs hb
  have h2 := hexCodesToBytes_bytesToHexCodes cs hc
  rw [h, h2] at h1
  exact (Option.some_inj.mp h1).symm

/-! ## Base64 (Python `base64.b64encode` / canonical `b64decode`) -/

/-- Code point of the base64 alphabet character for `v < 64`. -/
def b64code (v : ℕ) : ℕ :=
  if v < 26 then v + 65
  else if v < 52 then v + 71
  else if v < 62 then v - 4
  else if v = 62 then 43
  else 47

/-- Value of a base64 alphabet code point (`61` is `=`, not in the
alphabet). -/
def b64val (c : ℕ) : Option ℕ :=
  if 65 ≤ c ∧ c ≤ 90 then some (c - 65)
  else if 97 ≤ c ∧ c ≤ 122 then some (c - 71)
  else if 48 ≤ c ∧ c ≤ 57 then some (c + 4)
  else if c = 43 then some 62
  else if c = 47 then some 63
  else none

theorem b64val_b64code : ∀ v < 64, b64val (b64code v) = some v := by decide

theorem b64code_ne_eq : ∀ v < 64, b64code v ≠ 61 := by decide

theorem b64val_inv {c v : ℕ} (h : b64val c = some v) : v < 64 ∧ b64code v = c := by
  unfold b64val at h
  split_ifs at h with h1 h2 h3 h4 h5 <;> injection h with h <;> subst h <;>
    refine ⟨by omega, ?_⟩ <;> unfold b64code <;> split_ifs <;> omega

/-- RFC 4648 base64 encoding of a byte string, with `=` (code 61)
padding (`base64.b64encode`). -/
def b64encode : List ℕ → List ℕ
  | [] => []
  | [b1] => [b64code (b1 / 4), b64code (b1 % 4 * 16), 61, 61]
  | [b1, b2] => [b64code (b1 / 4), b64code (b1 % 4 * 16 + b2 / 16), b64code (b2 % 16 * 4), 61]
  | b1 :: b2 :: b3 :: rest =>
    b64code (b1 / 4) :: b64code (b1 % 4 * 16 + b2 / 16) ::
      b64code (b2 % 16 * 4 + b3 / 64) :: b64code (b3 % 64) :: b64encode rest

/-- Decode the final (possibly padded) base64 quantum. -/
def b64decodeLast (c1 c2 c3 c4 : ℕ) : Option (List ℕ) :=
  if c3 = 61 ∧ c4 = 61 then
    match b64val c1, b64val c2 with
    | some v1, some v2 => if v2 % 16 = 0 then some [4 * v1 + v2 / 16] else none
    | _, _ => none
  else if c4 = 61 then
    match b64val c1, b64val c2, b64val c3 with
    | some v1, some v2, some v3 =>
      if v3 % 4 = 0 then some [4 * v1 + v2 / 16, v2 % 16 * 16 + v3 / 4] else none
    | _, _, _ => none
  else
    match b64val c1, b64val c2, b64val c3, b64val c4 with
    | some v1, some v2, some v3, some v4 =>
      some [4 * v1 + v2 / 16, v2 % 16 * 16 + v3 / 4, v3 % 4 * 64 + v4]
    | _, _, _, _ => none

/-- Canonical base64 decoding: the exact partial inverse of `b64encode`
(Python's `base64.b64decode`, modelled strictly). -/
def b64decode : List ℕ → Option (List ℕ)
  | [] => some []
  | c1 :: c2 :: c3 :: c4 :: rest =>
    if rest.isEmpty then b64decodeLast c1 c2 c3 c4
    else
      match b64val c1, b64val c2, b64val c3, b64val c4, b64decode rest with
      | some v1, some v2, some v3, some v4, some tl =>
        some ((4 * v1 + v2 / 16) :: (v2 % 16 * 16 + v3 / 4) :: (v3 % 4 * 64 + v4) :: tl)
      | _, _, _, _, _ => none
  | _ => none

theorem b64encode_eq_nil_iff : ∀ bs : List ℕ, b64encode bs = [] ↔ bs = [] := by
  intro bs
  match bs with
  | [] => simp [b64encode]
  | [b1] => simp [b64encode]
  | [b1, b2] => simp [b64encode]
  | b1 :: b2 :: b3 :: rest => simp [b64encode]

theorem b64decode_b64encode :
    ∀ bs : List ℕ, (∀ b ∈ bs, b < 256) → b64decode (b64encode bs) = some bs := by
  intro bs
  induction bs using b64encode.induct with
  | case1 => intro _; rfl
  | case2 b1 =>
    intro h
    have hb1 : b1 < 256 := h b1 (by simp)
    have e1 : b1 / 4 < 64 := by omega
    have e2 : b1 % 4 * 16 < 64 := by omega
    simp only [b64encode, b64decode, List.isEmpty_nil, if_true, b64decodeLast,
      b64val_b64code _ e1, b64val_b64code _ e2]
    have h0 : b1 % 4 * 16 % 16 = 0 := by omega
    simp [h0]
    omega
  | case3 b1 b2 =>
    intro h
    have hb1 : b1 < 256 := h b1 (by simp)
    have hb2 : b2 < 256 := h b2 (by simp)
    have e1 : b1 / 4 < 64 := by omega
    have e2 : b1 % 4 * 16 + b2 / 16 < 64 := by omega
    have e3 : b2 % 16 * 4 < 64 := by omega
    have hne : b64code (b2 % 16 * 4) ≠ 61 := b64code_ne_eq _ e3
    simp only [b64encode, b64decode, List.isEmpty_nil, if_true, b64decodeLast, hne,
      false_and, if_false, if_true, b64val_b64code _ e1, b64val_b64code _ e2,
      b64val_b64code _ e3]
    have h0 : b2 % 16 * 4 % 4 = 0 := by omega
    simp [h0]
    constructor <;> omega
  | case4 b1 b2 b3 rest ih =>
    intro h
    have hb1 : b1 < 256 := h b1 (by simp)
    have hb2 : b2 < 256 := h b2 (by simp)
    have hb3 : b3 < 256 := h b3 (by simp)
    have e1 : b1 / 4 < 64 := by omega
    have e2 : b1 % 4 * 16 + b2 / 16 < 64 := by omega
    have e3 : b2 % 16 * 4 + b3 / 64 < 64 := by omega
    have e4 : b3 % 64 < 64 := by omega
    have h1 : 4 * (b1 / 4) + (b1 % 4 * 16 + b2 / 16) / 16 = b1 := by omega
    have h2 : (b1 % 4 * 16 + b2 / 16) % 16 * 16 + (b2 % 16 * 4 + b3 / 64) / 4 = b2 := by omega
    have h3 : (b2 % 16 * 4 + b3 / 64) % 4 * 64 + b3 % 64 = b3 := by omega
    have htl := ih (fun x hx => h x (by simp [hx]))
    rcases Decidable.em (rest = []) with hrest | hrest
    · subst hrest
      have hne3 : b64code (b2 % 16 * 4 + b3 / 64) ≠ 61 := b64code_ne_eq _ e3
      have hne4 : b64code (b3 % 64) ≠ 61 := b64code_ne_eq _ e4
      simp only [b64encode, b64decode, List.isEmpty_nil, if_true, b64decodeLast,
        hne3, hne4, false_and, and_false, if_false, b64val_b64code _ e1,
        b64val_b64code _ e2, b64val_b64code _ e3, b64val_b64code _ e4]
      simp [h1, h2, h3]
    · have henc : b64encode rest ≠ [] := fun hc => hrest ((b64encode_eq_nil_iff rest).mp hc)
      have hemp : (b64encode rest).isEmpty = false := by
        cases hr : b64encode rest with
        | nil => exact absurd hr henc
        | cons x xs => rfl
      simp only [b64encode, b64decode, hemp, if_false, b64val_b64code _ e1,
        b64val_b64code _ e2, b64val_b64code _ e3, b64val_b64code _ e4, htl]
      simp [h1, h2, h3]

theorem b64encode_b64decode_aux :
    ∀ (n : ℕ) (r bs : List ℕ), r.length ≤ n → b64decode r = some bs →
      b64encode bs = r ∧ ∀ b ∈ bs, b < 256 := by
  intro n
  induction n with
  | zero =>
    intro r bs hlen h
    have : r = [] := List.length_eq_zero.mp (Nat.le_zero.mp hlen)
    subst this
    injection h with h
    subst h
    exact ⟨rfl, by simp⟩
  | succ n ih =>
    intro r bs hlen h
    match r with
    | [] =>
      injection h with h
      subst h
      exact ⟨rfl, by simp⟩
    | [c1] => exact absurd h (by simp [b64decode])
    | [c1, c2] => exact absurd h (by simp [b64decode])
    | [c1, c2, c3] => exact absurd h (by simp [b64decode])
    | c1 :: c2 :: c3 :: c4 :: rest =>
      by_cases hemp : rest.isEmpty
      · have hrest : rest = [] := List.isEmpty_iff.mp hemp
        subst hrest
        unfold b64decode at h
        simp only [List.isEmpty_nil, if_true] at h
        unfold b64decodeLast at h
        split_ifs at h with hpad1 hpad2
        · obtain ⟨h3, h4⟩ := hpad1
          subst h3; subst h4
          cases hv1 : b64val c1 with
          | none => rw [hv1] at h; exact absurd h (by simp)
          | some v1 =>
          cases hv2 : b64val c2 with
          | none => rw [hv1, hv2] at h; exact absurd h (by simp)
          | some v2 =>
            rw [hv1, hv2] at h
            obtain ⟨hlt1, hc1⟩ := b64val_inv hv1
            obtain ⟨hlt2, hc2⟩ := b64val_inv hv2
            by_cases hm : v2 % 16 = 0
            · simp only [hm, reduceIte, Option.some.injEq] at h
              subst h
              refine ⟨?_, ?_⟩
              · show b64encode [4 * v1 + v2 / 16] = _
                unfold b64encode
                have d1 : (4 * v1 + v2 / 16) / 4 = v1 := by omega
                have d2 : (4 * v1 + v2 / 16) % 4 * 16 = v2 := by omega
                rw [d1, d2, hc1, hc2]
              · intro b hb
                simp at hb
                omega
            · simp [hm] at h
        · cases hv1 : b64val c1 with
          | none => rw [hv1] at h; exact absurd h (by simp)
          | some v1 =>
          cases hv2 : b64val c2 with
          | none => rw [hv1, hv2] at h; exact absurd h (by simp)
          | some v2 =>
          cases hv3 : b64val c3 with
          | none => rw [hv1, hv2, hv3] at h; exact absurd h (by simp)
          | some v3 =>
            rw [hv1, hv2, hv3] at h
            obtain ⟨hlt1, hc1⟩ := b64val_inv hv1
            obtain ⟨hlt2, hc2⟩ := b64val_inv hv2
            obtain ⟨hlt3, hc3⟩ := b64val_inv hv3
            subst hpad2
            by_cases hm : v3 % 4 = 0
            · simp only [hm, reduceIte, Option.some.injEq] at h
              subst h
              refine ⟨?_, ?_⟩
              · show b64encode [4 * v1 + v2 / 16, v2 % 16 * 16 + v3 / 4] = _
                unfold b64encode
                have d1 : (4 * v1 + v2 / 16) / 4 = v1 := by omega
                have d2 : (4 * v1 + v2 / 16) % 4 * 16 + (v2 % 16 * 16 + v3 / 4) / 16 = v2 := by
                  omega
                have d3 : (v2 % 16 * 16 + v3 / 4) % 16 * 4 = v3 := by omega
                rw [d1, d2, d3, hc1, hc2, hc3]
              · intro b hb
                simp at hb
                rcases hb with hb | hb <;> omega
            · simp [hm] at h
        · cases hv1 : b64val c1 with
          | none => rw [hv1] at h; exact absurd h (by simp)
          | some v1 =>
          cases hv2 : b64val c2 with
          | none => rw [hv1, hv2] at h; exact absurd h (by simp)
          | some v2 =>
          cases hv3 : b64val c3 with
          | none => rw [hv1, hv2, hv3] at h; exact absurd h (by simp)
          | some v3 =>
          cases hv4 : b64val c4 with
          | none => rw [hv1, hv2, hv3, hv4] at h; exact absurd h (by simp)
          | some v4 =>
            rw [hv1, hv2, hv3, hv4] at h
            simp only [Option.some.injEq] at h
            subst h
            obtain ⟨hlt1, hc1⟩ := b64val_inv hv1
            obtain ⟨hlt2, hc2⟩ := b64val_inv hv2
            obtain ⟨hlt3, hc3⟩ := b64val_inv hv3
            obtain ⟨hlt4, hc4⟩ := b64val_inv hv4
            refine ⟨?_, ?_⟩
            · show b64encode [4 * v1 + v2 / 16, v2 % 16 * 16 + v3 / 4, v3 % 4 * 64 + v4] = _
              unfold b64encode
              have d1 : (4 * v1 + v2 / 16) / 4 = v1 := by omega
              have d2 : (4 * v1 + v2 / 16) % 4 * 16 + (v2 % 16 * 16 + v3 / 4) / 16 = v2 := by
                omega
              have d3 : (v2 % 16 * 16 + v3 / 4) % 16 * 4 + (v3 % 4 * 64 + v4) / 64 = v3 := by
                omega
              have d4 : (v3 % 4 * 64 + v4) % 64 = v4 := by omega
              rw [d1, d2, d3, d4, hc1, hc2, hc3, hc4]
              rfl
            · intro b hb
              simp at hb
              rcases hb with hb | hb | hb <;> omega
      · unfold b64decode at h
        rw [if_neg hemp] at h
        cases hv1 : b64val c1 with
        | none => rw [hv1] at h; exact absurd h (by simp)
        | some v1 =>
        cases hv2 : b64val c2 with
        | none => rw [hv1, hv2] at h; exact absurd h (by simp)
        | some v2 =>
        cases hv3 : b64val c3 with
        | none => rw [hv1, hv2, hv3] at h; exact absurd h (by simp)
        | some v3 =>
        cases hv4 : b64val c4 with
        | none => rw [hv1, hv2, hv3, hv4] at h; exact absurd h (by simp)
        | some v4 =>
        cases htl : b64decode rest with
        | none => rw [hv1, hv2, hv3, hv4, htl] at h; exact absurd h (by simp)
        | some tl =>
          rw [hv1, hv2, hv3, hv4, htl] at h
          simp only [Option.some.injEq] at h
          subst h
          have hlen' : rest.length ≤ n := by
            simp only [List.length_cons] at hlen
            omega
          obtain ⟨henc, hbound⟩ := ih rest tl hlen' htl
          obtain ⟨hlt1, hc1⟩ := b64val_inv hv1
          obtain ⟨hlt2, hc2⟩ := b64val_inv hv2
          obtain ⟨hlt3, hc3⟩ := b64val_inv hv3
          obtain ⟨hlt4, hc4⟩ := b64val_inv hv4
          refine ⟨?_, ?_⟩
          · show b64encode ((4 * v1 + v2 / 16) :: (v2 % 16 * 16 + v3 / 4) ::
              (v3 % 4 * 64 + v4) :: tl) = _
            unfold b64encode
            have d1 : (4 * v1 + v2 / 16) / 4 = v1 := by omega
            have d2 : (4 * v1 + v2 / 16) % 4 * 16 + (v2 % 16 * 16 + v3 / 4) / 16 = v2 := by
              omega
            have d3 : (v2 % 16 * 16 + v3 / 4) % 16 * 4 + (v3 % 4 * 64 + v4) / 64 = v3 := by
              omega
            have d4 : (v3 % 4 * 64 + v4) % 64 = v4 := by omega
            rw [d1, d2, d3, d4, hc1, hc2, hc3, hc4, henc]
          · intro b hb
            simp at hb
            rcases hb with hb | hb | hb | hb
            · omega
            · omega
            · omega
            · exact hbound b hb

/-- Canonical base64 decoding succeeds exactly on canonical encodings. -/
theorem b64encode_b64decode {r bs : List ℕ} (h : b64decode r = some bs) :
    b64encode bs = r ∧ ∀ b ∈ bs, b < 256 :=
  b64encode_b64decode_aux r.length r bs le_rfl h

/-! ## SHA-256 (FIPS 180-4, the `hashlib.sha256` the code calls) -/

/-- Right rotation of a 32-bit word (represented as a `ℕ` below `2^32`). -/
def rotr32 (n x : ℕ) : ℕ := x / 2 ^ n + x % 2 ^ n * 2 ^ (32 - n)

/-- SHA-256 small sigma 0. -/
def smallSig0 (x : ℕ) : ℕ := Nat.xor (Nat.xor (rotr32 7 x) (rotr32 18 x)) (x / 2 ^ 3)

/-- SHA-256 small sigma 1. -/
def smallSig1 (x : ℕ) : ℕ := Nat.xor (Nat.xor (rotr32 17 x) (rotr32 19 x)) (x / 2 ^ 10)

/-- SHA-256 big sigma 0. -/
def bigSig0 (x : ℕ) : ℕ := Nat.xor (Nat.xor (rotr32 2 x) (rotr32 13 x)) (rotr32 22 x)

/-- SHA-256 big sigma 1. -/
def bigSig1 (x : ℕ) : ℕ := Nat.xor (Nat.xor (rotr32 6 x) (rotr32 11 x)) (rotr32 25 x)

/-- SHA-256 choice function. -/
def shaCh (e f g : ℕ) : ℕ := Nat.xor (Nat.land e f) (Nat.land (Nat.xor e 4294967295) g)

/-- SHA-256 majority function. -/
def shaMaj (a b c : ℕ) : ℕ := Nat.xor (Nat.xor (Nat.land a b) (Nat.land a c)) (Nat.land b c)

/-- The 64 SHA-256 round constants (FIPS 180-4, written in decimal). -/
def shaK : List ℕ :=
  [1116352408, 1899447441, 3049323471, 3921009573, 961987163, 1508970993,
   2453635748, 2870763221, 3624381080, 310598401, 607225278, 1426881987,
   1925078388, 2162078206, 2614888103, 3248222580, 3835390401, 4022224774,
   264347078, 604807628, 770255983, 1249150122, 1555081692, 1996064986,
   2554220882, 2821834349, 2952996808, 3210313671, 3336571891, 3584528711,
   113926993, 338241895, 666307205, 773529912, 1294757372, 1396182291,
   1695183700, 1986661051, 2177026350, 2456956037, 2730485921, 2820302411,
   3259730800, 3345764771, 3516065817, 3600352804, 4094571909, 275423344,
   430227734, 506948616, 659060556, 883997877, 958139571, 1322822218,
   1537002063, 1747873779, 1955562222, 2024104815, 2227730452, 2361852424,
   2428436474, 2756734187, 3204031479, 3329325298]

/-- The eight-word SHA-256 working state. -/
structure Hash8 where
  w0 : ℕ
  w1 : ℕ
  w2 : ℕ
  w3 : ℕ
  w4 : ℕ
  w5 : ℕ
  w6 : ℕ
  w7 : ℕ

/-- SHA-256 initial hash value (FIPS 180-4, written in decimal). -/
def shaInit : Hash8 :=
  ⟨1779033703, 3144134277, 1013904242, 2773480762, 1359893119, 2600822924,
   528734635, 1541459225⟩

/-- Group a byte string into big-endian 32-bit words. -/
def bytesToWords : List ℕ → List ℕ
  | b1 :: b2 :: b3 :: b4 :: rest =>
    (b1 * 16777216 + b2 * 65536 + b3 * 256 + b4) :: bytesToWords rest
  | _ => []

/-- Extend the 16 message-schedule words by `n` further words. -/
def extendWords : ℕ → List ℕ → List ℕ
  | 0, ws => ws
  | n + 1, ws =>
    let len := ws.length
    let w := (smallSig1 (ws.getD (len - 2) 0) + ws.getD (len - 7) 0 +
      smallSig0 (ws.getD (len - 15) 0) + ws.getD (len - 16) 0) % 4294967296
    extendWords n (ws ++ [w])

/-- One SHA-256 compression round; the pair is `(round constant, schedule word)`. -/
def shaRound (st : Hash8) (kw : ℕ × ℕ) : Hash8 :=
  let t1 := (st.w7 + bigSig1 st.w4 + shaCh st.w4 st.w5 st.w6 + kw.1 + kw.2) % 4294967296
  let t2 := (bigSig0 st.w0 + shaMaj st.w0 st.w1 st.w2) % 4294967296
  ⟨(t1 + t2) % 4294967296, st.w0, st.w1, st.w2, (st.w3 + t1) % 4294967296,
    st.w4, st.w5, st.w6⟩

/-- Compress one 64-byte block into the running hash value. -/
def shaCompress (hv : Hash8) (block : List ℕ) : Hash8 :=
  let ws := extendWords 48 (bytesToWords block)
  let f := (shaK.zip ws).foldl shaRound hv
  ⟨(hv.w0 + f.w0) % 4294967296, (hv.w1 + f.w1) % 4294967296,
   (hv.w2 + f.w2) % 4294967296, (hv.w3 + f.w3) % 4294967296,
   (hv.w4 + f.w4) % 4294967296, (hv.w5 + f.w5) % 4294967296,
   (hv.w6 + f.w6) % 4294967296, (hv.w7 + f.w7) % 4294967296⟩

/-- SHA-256 padding: `0x80`, zeros to 56 mod 64, then the bit length as
eight big-endian bytes. -/
def shaPad (ms : List ℕ) : List ℕ :=
  let l := 8 * ms.length
  ms ++ 128 :: List.replicate ((119 - ms.length % 64) % 64) 0 ++
    [l / 2 ^ 56 % 256, l / 2 ^ 48 % 256, l / 2 ^ 40 % 256, l / 2 ^ 32 % 256,
     l / 2 ^ 24 % 256, l / 2 ^ 16 % 256, l / 2 ^ 8 % 256, l % 256]

/-- Split a padded message into 64-byte blocks (fuel recursion so that the
definition reduces in the kernel). -/
def blocks64 : ℕ → List ℕ → List (List ℕ)
  | 0, _ => []
  | _, [] => []
  | fuel + 1, l => l.take 64 :: blocks64 fuel (l.drop 64)

/-- Big-endian bytes of a 32-bit word. -/
def wordBytes (w : ℕ) : List ℕ := [w / 16777216 % 256, w / 65536 % 256, w / 256 % 256, w % 256]

/-- SHA-256 digest (32 bytes) of a byte string. -/
def sha256 (ms : List ℕ) : List ℕ :=
  let padded := shaPad ms
  let f := (blocks64 (padded.length + 1) padded).foldl shaCompress shaInit
  wordBytes f.w0 ++ wordBytes f.w1 ++ wordBytes f.w2 ++ wordBytes f.w3 ++
    wordBytes f.w4 ++ wordBytes f.w5 ++ wordBytes f.w6 ++ wordBytes f.w7

/-- Lowercase hex digest of SHA-256, as Python's
`hashlib.sha256(x).hexdigest()` (a string, modelled as code points). -/
def sha256hex (ms : List ℕ) : List ℕ := bytesToHexCodes (sha256 ms)

theorem sha256_length (ms : List ℕ) : (sha256 ms).length = 32 := by
  simp [sha256, wordBytes]

theorem sha256_bytes_lt (ms : List ℕ) : ∀ b ∈ sha256 ms, b < 256 := by
  intro b hb
  simp only [sha256, wordBytes, List.mem_append, List.mem_cons,
    List.not_mem_nil, or_false] at hb
  omega

/-! ## PRNG seed cursor (`ruth/core/prng.py`, `Xoshiro256StarStar.next_seed`) -/

/-- The seed-cursor state of `Xoshiro256StarStar`: the configured seed list
and the current epoch counter. -/
structure SeedCursor where
  seeds : List ℕ
  current_epoch : ℕ

/-- `Xoshiro256StarStar.next_seed`: raises (`ValueError "No seeds provided"`,
the spec's *ConfigError*) on an empty seed list, otherwise returns
`seeds[current_epoch % len(seeds)]` and increments the epoch.  The second
component is the cursor state after the call (unchanged when the error
is raised, since Python raises before the increment). -/
def next_seed (c : SeedCursor) : Except String ℕ × SeedCursor :=
  if c.seeds.isEmpty then (.error "No seeds provided", c)
  else
    (.ok (c.seeds.getD (c.current_epoch % c.seeds.length) 0),
     ⟨c.seeds, c.current_epoch + 1⟩)

/-! ## Gradient reconstruction (`ruth/server/aggregator.py`,
`RobustAggregator.reconstruct`) -/

/-- A client payload as consumed by `RobustAggregator.reconstruct`:
a seed identifier and the scalar update. -/
structure SeedPayload where
  seed_id : ℕ
  scalar : ℚ

/-- `RobustAggregator.reconstruct`: for each payload, regenerate the noise
vector from the seed (`self.prng.generate_noise_vector`, passed here as the
oracle `noise`) and scale it by the payload's scalar; stack the rows.
`d` is the aggregator's configured `shape`. -/
def reconstruct (noise : ℕ → ℕ → List ℚ) (d : ℕ) (payloads : List SeedPayload) :
    List (List ℚ) :=
  payloads.map (fun p => (noise p.seed_id d).map (fun x => p.scalar * x))

/-! ## Robust aggregation (`ruth/server/aggregator.py`,
`RobustAggregator.aggregate`) -/

/-- Column `j` of a stacked gradient matrix (list of rows). -/
def colj (G : List (List ℚ)) (j : ℕ) : List ℚ := G.map (fun row => row.getD j 0)

/-- `torch.mean` over a vector: sum divided by length. -/
def mean (xs : List ℚ) : ℚ := xs.sum / (xs.length : ℚ)

/-- `int(num_clients * self.trim_ratio)` for a nonnegative product
(Python `int()` truncation coincides with the floor there). -/
def trimCount (trim_ratio : ℚ) (n : ℕ) : ℕ := (⌊(n : ℚ) * trim_ratio⌋).toNat

/-- `RobustAggregator.aggregate`: coordinate-wise trimmed mean.
`gradients.numel() == 0` is `G.length * d = 0`; `torch.sort(·, dim=0)` sorts
every column independently (embedded with `List.mergeSort`, matching
torch's ascending sort); `sorted_grads[k : num_clients - k]` is
`drop k` followed by `take (n - k - k)`; `torch.mean(·, dim=0)` is the
column-wise `mean`. -/
def aggregate (trim_ratio : ℚ) (d : ℕ) (G : List (List ℚ)) : List ℚ :=
  if G.length * d = 0 then List.replicate d 0
  else
    let n := G.length
    let k := trimCount trim_ratio n
    if k = 0 then (List.range d).map (fun j => mean (colj G j))
    else
      (List.range d).map (fun j =>
        mean ((((colj G j).mergeSort (fun a b => decide (a ≤ b))).drop k).take (n - k - k)))

/-- The spec's coordinate-wise arithmetic mean of `G`. -/
def specMeanVec (G : List (List ℚ)) (d : ℕ) : List ℚ :=
  (List.range d).map (fun j => (colj G j).sum / (G.length : ℚ))

/-- The spec's trimmed mean: per coordinate, sort the column ascending,
discard the highest `k` (`take (length - k)`) and the lowest `k`
(`drop k`), and average what remains. -/
def specTrimmedVec (G : List (List ℚ)) (d k : ℕ) : List ℚ :=
  (List.range d).map (fun j =>
    let sorted := List.insertionSort (· ≤ ·) (colj G j)
    mean ((sorted.take (sorted.length - k)).drop k))

/-! ## Client training step (`ruth/client/runtime.py`, `ClientRuntime.step`) -/

/-- The mutable state of `ClientRuntime` relevant to `step`. -/
structure ClientState where
  step_count : ℕ
  baseline : ℚ
  beta : ℚ
  max_norm : ℚ

/-- The dictionary returned by `ClientRuntime.step`. -/
structure StepResult where
  seed_id : ℕ
  scalar : ℚ
  loss : ℚ
  raw_rho : ℚ
  epsilon : ℚ

/-- `ClientRuntime.step`, given the already-drawn seed and the three loss
evaluations (`loss0`, `lossP`, `lossM` are the model forward results, which
are opaque inputs here): the antithetic estimate
`rho = (lossP - lossM) / (2 epsilon)`, the EMA baseline update, baseline
subtraction, and the magnitude clip. -/
def clientStep (st : ClientState) (seed_id : ℕ) (epsilon lossP lossM loss0 : ℚ) :
    ClientState × StepResult :=
  let rho := (lossP - lossM) / (2 * epsilon)
  let baseline := st.beta * st.baseline + (1 - st.beta) * rho
  let rho_adj := rho - baseline
  let clipped :=
    if |rho_adj| > st.max_norm then st.max_norm * (if rho_adj > 0 then 1 else -1)
    else rho_adj
  (⟨st.step_count + 1, baseline, st.beta, st.max_norm⟩,
   ⟨seed_id, clipped, loss0, rho, epsilon⟩)

/-! ## Claim C6: seed cursor -/

/-- **C6.** For a non-empty seed list, `next_seed` returns
`seeds[epoch mod |seeds|]` and increments the epoch by exactly one; for an
empty seed list it fails with the *ConfigError* (`ValueError
"No seeds provided"`) and leaves the epoch (indeed the whole cursor state)
unchanged. -/
theorem next_seed_spec (c : SeedCursor) :
    (c.seeds ≠ [] →
      next_seed c = (.ok (c.seeds.getD (c.current_epoch % c.seeds.length) 0),
        ⟨c.seeds, c.current_epoch + 1⟩))
    ∧ (c.seeds = [] → next_seed c = (.error "No seeds provided", c)) := by
  constructor
  · intro h
    simp [next_seed, h]
  · intro h
    simp [next_seed, h]

theorem next_seed_spec_witness :
    (next_seed ⟨[10, 20, 30], 4⟩ = (.ok 20, ⟨[10, 20, 30], 5⟩)) ∧
    (next_seed ⟨[], 7⟩ = (.error "No seeds provided", ⟨[], 7⟩)) :=
  ⟨(next_seed_spec ⟨[10, 20, 30], 4⟩).1 (by decide),
   (next_seed_spec ⟨[], 7⟩).2 rfl⟩

/-! ## Claim C2: gradient reconstruction -/

/-- **C2.** `RobustAggregator.reconstruct` returns one row per payload, and
the `i`-th row is exactly `scalar_i * noise(seed_id_i, d)`: the
reconstructed gradient is the payload's scalar times the noise vector
regenerated from the seed id alone. -/
theorem reconstruct_spec (noise : ℕ → ℕ → List ℚ) (d : ℕ) (ps : List SeedPayload) :
    (reconstruct noise d ps).length = ps.length ∧
    ∀ i, i < ps.length →
      (reconstruct noise d ps).getD i [] =
        (noise (ps.getD i ⟨0, 0⟩).seed_id d).map (fun x => (ps.getD i ⟨0, 0⟩).scalar * x) := by
  refine ⟨by simp [reconstruct], ?_⟩
  intro i hi
  have h := List.getElem?_eq_getElem hi
  simp [reconstruct, List.getD, List.getElem?_map, h]

theorem reconstruct_spec_witness :
    0 < ([⟨3, 2⟩] : List SeedPayload).length ∧
    (reconstruct (fun s n => List.replicate n (s : ℚ)) 2 [⟨3, 2⟩]).getD 0 [] =
      (List.replicate 2 ((3 : ℕ) : ℚ)).map (fun x => (2 : ℚ) * x) :=
  ⟨by decide, (reconstruct_spec (fun s n => List.replicate n (s : ℚ)) 2 [⟨3, 2⟩]).2 0 (by decide)⟩

/-! ## Claim C1: trimmed-mean aggregation -/

/-- **C1.** For an `n × d` gradient stack with `n, d ≥ 1`:
if `k = ⌊n * trim_ratio⌋ = 0` the aggregate is the coordinate-wise
arithmetic mean; if `k ≥ 1` (and `n - 2k ≥ 1`) it is, per coordinate, the
mean of the `n - 2k` values left after sorting the column ascending and
discarding the lowest `k` and the highest `k`; and the empty input
(`n = 0`) yields the zero vector of length `d`. -/
theorem aggregate_spec (trim_ratio : ℚ) (d : ℕ) (G : List (List ℚ)) (hd : 1 ≤ d)
    (hrows : ∀ row ∈ G, row.length = d) :
    (G = [] → aggregate trim_ratio d G = List.replicate d 0)
    ∧ (G ≠ [] → trimCount trim_ratio G.length = 0 →
        aggregate trim_ratio d G = specMeanVec G d)
    ∧ (G ≠ [] → 1 ≤ trimCount trim_ratio G.length →
        1 ≤ G.length - 2 * trimCount trim_ratio G.length →
        aggregate trim_ratio d G = specTrimmedVec G d (trimCount trim_ratio G.length)) := by
  refine ⟨?_, ?_, ?_⟩
  · intro h
    subst h
    simp [aggregate]
  · intro hne hk
    have hlen : G.length ≠ 0 := fun hc => hne (List.length_eq_zero.mp hc)
    have hprod : ¬(G.length * d = 0) := by
      intro hc
      rcases Nat.mul_eq_zero.mp hc with hc | hc
      · exact hlen hc
      · omega
    unfold aggregate
    rw [if_neg hprod]
    simp only [hk, if_pos rfl]
    unfold specMeanVec mean colj
    simp
  · intro hne hk1 hk2
    have hlen : G.length ≠ 0 := fun hc => hne (List.length_eq_zero.mp hc)
    have hprod : ¬(G.length * d = 0) := by
      intro hc
      rcases Nat.mul_eq_zero.mp hc with hc | hc
      · exact hlen hc
      · omega
    unfold aggregate
    rw [if_neg hprod]
    rw [if_neg (by omega)]
    unfold specTrimmedVec
    refine List.map_congr_left (fun j hj => ?_)
    have hms : (colj G j).mergeSort (fun a b => decide (a ≤ b)) =
        List.insertionSort (· ≤ ·) (colj G j) :=
      List.mergeSort_eq_insertionSort (r := (· ≤ ·)) (colj G j)
    have hlen2 : (List.insertionSort (· ≤ ·) (colj G j)).length = G.length := by
      rw [List.length_insertionSort]
      simp [colj]
    rw [hms]
    show mean _ = mean (((List.insertionSort (· ≤ ·) (colj G j)).take
      ((List.insertionSort (· ≤ ·) (colj G j)).length - trimCount trim_ratio G.length)).drop
      (trimCount trim_ratio G.length))
    rw [List.drop_take, hlen2]

theorem aggregate_spec_witness :
    (1 ≤ 1 ∧ ∀ row ∈ ([[1], [2], [3], [4]] : List (List ℚ)), row.length = 1) ∧
    (([[1], [2], [3], [4]] : List (List ℚ)) = [] →
      aggregate (1/10) 1 [[1], [2], [3], [4]] = List.replicate 1 0)
    ∧ (([[1], [2], [3], [4]] : List (List ℚ)) ≠ [] →
        trimCount (1/10) (([[1], [2], [3], [4]] : List (List ℚ)).length) = 0 →
        aggregate (1/10) 1 [[1], [2], [3], [4]] = specMeanVec [[1], [2], [3], [4]] 1)
    ∧ (([[1], [2], [3], [4]] : List (List ℚ)) ≠ [] →
        1 ≤ trimCount (1/10) (([[1], [2], [3], [4]] : List (List ℚ)).length) →
        1 ≤ ([[1], [2], [3], [4]] : List (List ℚ)).length -
          2 * trimCount (1/10) (([[1], [2], [3], [4]] : List (List ℚ)).length) →
        aggregate (1/10) 1 [[1], [2], [3], [4]] =
          specTrimmedVec [[1], [2], [3], [4]] 1
            (trimCount (1/10) (([[1], [2], [3], [4]] : List (List ℚ)).length))) :=
  ⟨⟨le_refl 1, by decide⟩, aggregate_spec (1/10) 1 [[1], [2], [3], [4]] (le_refl 1) (by decide)⟩

/-! ## Claim C5: scalar clipping in the client step -/

/-- **C5.** For any inputs with a positive `max_norm`, the scalar emitted by
`ClientRuntime.step` satisfies `|scalar| ≤ max_norm`: after the baseline
subtraction, any adjusted value whose absolute value exceeds `max_norm` is
replaced by `sign * max_norm`. -/
theorem clientStep_clip (st : ClientState) (seed_id : ℕ) (epsilon lossP lossM loss0 : ℚ)
    (h : 0 < st.max_norm) :
    |(clientStep st seed_id epsilon lossP lossM loss0).2.scalar| ≤ st.max_norm := by
  unfold clientStep
  simp only
  set rho_adj := (lossP - lossM) / (2 * epsilon) -
    (st.beta * st.baseline + (1 - st.beta) * ((lossP - lossM) / (2 * epsilon))) with hadj
  by_cases hc : |rho_adj| > st.max_norm
  · rw [if_pos hc]
    by_cases hp : rho_adj > 0
    · rw [if_pos hp, mul_one, abs_of_pos h]
    · rw [if_neg hp, mul_neg_one, abs_neg, abs_of_pos h]
  · rw [if_neg hc]
    exact le_of_not_lt hc

theorem clientStep_clip_witness :
    0 < (⟨0, 0, 9/10, 5⟩ : ClientState).max_norm ∧
    |(clientStep ⟨0, 0, 9/10, 5⟩ 1 (1/10) 3 1 2).2.scalar| ≤
      (⟨0, 0, 9/10, 5⟩ : ClientState).max_norm :=
  ⟨by norm_num, clientStep_clip ⟨0, 0, 9/10, 5⟩ 1 (1/10) 3 1 2 (by norm_num)⟩

/-! ## Gatekeeper (`ruth/server/verifier.py`) -/

/-- The fields of a `ClientUpdate` that the Gatekeeper inspects when
rebuilding the signing payload. -/
structure Update where
  seed_id : ℕ
  scalar : ℚ
  round_id : ℕ

/-- Decimal digits of a natural number, as code points (Python
f-string formatting of an `int`). -/
def natDecCodes (n : ℕ) : List ℕ := (Nat.toDigits 10 n).map Char.toNat

/-- `f"{seed_id}:{scalar}:{round_id}".encode('utf-8')` as rebuilt by
`Gatekeeper.verify_update`.  `fmt` is Python's default decimal rendering of
the float `scalar` (the same function the client uses; its exact digits are
irrelevant to the claims, so it is a parameter). -/
def payloadBytes (fmt : ℚ → List ℕ) (u : Update) : List ℕ :=
  natDecCodes u.seed_id ++ 58 :: fmt u.scalar ++ 58 :: natDecCodes u.round_id

/-- Outcome of the attestation verdict-oracle call
(`urllib.request.urlopen(req, timeout=5)` and response parsing):
either an HTTP 200-family response carrying the parsed JSON fields, or one
of the failure modes caught by the `except` arms of
`Gatekeeper._verify_attestation` (`HTTPError`, `URLError`, the 5-second
timeout, or any other exception). -/
inductive VerdictOutcome where
  | response (status : ℕ) (isValidSignature : Bool) (nonce : Option (List ℕ))
      (basicIntegrity : Bool)
  | httpError
  | urlError
  | timeout
  | otherError

/-- The nonce comparison of `Gatekeeper._verify_attestation`: accept when the
returned nonce equals the expected hex digest; otherwise base64-decode it and
accept when the decoded bytes' hex equals the expected digest; a missing
nonce (`result.get("nonce") = None`) or a decoding failure falls back to the
(already failed) string comparison and is rejected.  Base64 decoding is
modelled canonically. -/
def nonceAccepted (expected : List ℕ) (returned : Option (List ℕ)) : Bool :=
  match returned with
  | none => false
  | some r =>
    if r = expected then true
    else
      match b64decode r with
      | some bs => decide (bytesToHexCodes bs = expected)
      | none => false

/-- `Gatekeeper._verify_attestation`: require HTTP status 200, a valid
attestation signature, the nonce binding, and basic integrity — in that
order; every failure arm returns `False`. -/
def verifyAttestation (expected : List ℕ) (outcome : VerdictOutcome) : Bool :=
  match outcome with
  | .response status sigOk nonce integrity =>
    if status ≠ 200 then false
    else if ¬sigOk then false
    else if ¬nonceAccepted expected nonce then false
    else if ¬integrity then false
    else true
  | .httpError => false
  | .urlError => false
  | .timeout => false
  | .otherError => false

/-- `Gatekeeper.verify_update`: the Ed25519 check on the rebuilt payload
(`sigValid` is the outcome of the library call on `update.signature`),
then the attestation check against `expected_nonce =
sha256(payload).hexdigest()`. -/
def verify_update (sigValid : Bool) (fmt : ℚ → List ℕ) (u : Update)
    (outcome : VerdictOutcome) : Bool :=
  if ¬sigValid then false
  else verifyAttestation (sha256hex (payloadBytes fmt u)) outcome

/-! ## Claim C3: nonce binding -/

/-- **C3.** With `expected_nonce = sha256_hex(payload)`: the Gatekeeper's
nonce comparison accepts a returned nonce exactly when it is the hex digest
itself or the base64 encoding of the digest bytes (the bytes the hex string
denotes); and an update whose verdict response carries any other nonce is
rejected, whatever the signature flag, HTTP status, and integrity flag —
in particular a valid attestation replayed from an update with a different
scalar (hence a different digest) is rejected. -/
theorem nonce_binding (fmt : ℚ → List ℕ) (u : Update) :
    (∀ r : List ℕ,
      nonceAccepted (sha256hex (payloadBytes fmt u)) (some r) = true ↔
        (r = sha256hex (payloadBytes fmt u) ∨
         r = b64encode (sha256 (payloadBytes fmt u))))
    ∧ ∀ (sigValid : Bool) (status : ℕ) (sigOk : Bool) (nonce : Option (List ℕ))
        (integrity : Bool),
        nonce ≠ some (sha256hex (payloadBytes fmt u)) →
        nonce ≠ some (b64encode (sha256 (payloadBytes fmt u))) →
        verify_update sigValid fmt u (.response status sigOk nonce integrity) = false := by
  have hiff : ∀ r : List ℕ,
      nonceAccepted (sha256hex (payloadBytes fmt u)) (some r) = true ↔
        (r = sha256hex (payloadBytes fmt u) ∨
         r = b64encode (sha256 (payloadBytes fmt u))) := by
    intro r
    constructor
    · intro h
      simp only [nonceAccepted] at h
      by_cases he : r = sha256hex (payloadBytes fmt u)
      · exact Or.inl he
      · rw [if_neg he] at h
        right
        cases hd : b64decode r with
        | none => rw [hd] at h; exact absurd h (by simp)
        | some bs =>
          rw [hd] at h
          have hhex : bytesToHexCodes bs = sha256hex (payloadBytes fmt u) :=
            of_decide_eq_true h
          obtain ⟨henc, hlt⟩ := b64encode_b64decode hd
          have hbs : bs = sha256 (payloadBytes fmt u) :=
            bytesToHexCodes_inj hlt (sha256_bytes_lt _) hhex
          rw [← henc, hbs]
    · intro h
      simp only [nonceAccepted]
      by_cases he : r = sha256hex (payloadBytes fmt u)
      · rw [if_pos he]
      · rw [if_neg he]
        rcases h with h | h
        · exact absurd h he
        · subst h
          rw [b64decode_b64encode _ (sha256_bytes_lt _)]
          simp [sha256hex]
  refine ⟨hiff, ?_⟩
  intro sigValid status sigOk nonce integrity h1 h2
  unfold verify_update
  by_cases hs : sigValid
  · rw [if_neg (by simpa using hs)]
    simp only [verifyAttestation]
    by_cases hst : status ≠ 200
    · rw [if_pos hst]
    · rw [if_neg hst]
      by_cases hso : sigOk
      · rw [if_neg (by simpa using hso)]
        have hn : nonceAccepted (sha256hex (payloadBytes fmt u)) nonce = false := by
          cases nonce with
          | none => rfl
          | some r =>
            have hr1 : r ≠ sha256hex (payloadBytes fmt u) := fun hc => h1 (by rw [hc])
            have hr2 : r ≠ b64encode (sha256 (payloadBytes fmt u)) := fun hc => h2 (by rw [hc])
            rcases hb : nonceAccepted (sha256hex (payloadBytes fmt u)) (some r) with _ | _
            · rfl
            · rcases (hiff r).mp hb with hc | hc
              · exact absurd hc hr1
              · exact absurd hc hr2
        rw [hn]
        simp
      · rw [if_pos (by simpa using hso)]
  · rw [if_pos (by simpa using hs)]

theorem nonce_binding_witness :
    ((some [120] : Option (List ℕ)) ≠
        some (sha256hex (payloadBytes (fun _ => [48, 46, 49]) ⟨42, 1/10, 7⟩)) ∧
      (some [120] : Option (List ℕ)) ≠
        some (b64encode (sha256 (payloadBytes (fun _ => [48, 46, 49]) ⟨42, 1/10, 7⟩)))) ∧
    verify_update true (fun _ => [48, 46, 49]) ⟨42, 1/10, 7⟩
      (.response 200 true (some [120]) true) = false :=
  ⟨⟨by decide, by decide⟩,
   (nonce_binding (fun _ => [48, 46, 49]) ⟨42, 1/10, 7⟩).2 true 200 true (some [120]) true
     (by decide) (by decide)⟩

/-! ## Claim C4: unreachable verdict is fail-closed -/

/-- **C4.** Whenever the verdict-oracle call fails — HTTP error, network
error, the 5-second timeout, or any other exception — `verify_update`
rejects the update, for every update and regardless of the signature
check's outcome: an unreachable verdict never results in acceptance. -/
theorem verdict_fail_closed (sigValid : Bool) (fmt : ℚ → List ℕ) (u : Update) :
    verify_update sigValid fmt u .httpError = false ∧
    verify_update sigValid fmt u .urlError = false ∧
    verify_update sigValid fmt u .timeout = false ∧
    verify_update sigValid fmt u .otherError = false := by
  cases sigValid <;> simp [verify_update, verifyAttestation]

/-! ## Signer (`ruth/client/security.py`) and Claim C9 -/

/-- An Ed25519 key pair as used through the `cryptography` library: the
private-key signing operation and the matching public-key verification. -/
structure Ed25519 where
  sign : List ℕ → List ℕ
  verify : List ℕ → List ℕ → Bool

/-- `SecurityManager.sign_update`: sign
`f"{seed_id}:{scalar}:{round_id}".encode('utf-8')` with the device key,
`fmt` being Python's default decimal rendering of the float `scalar`. -/
def sign_update (key : Ed25519) (fmt : ℚ → List ℕ) (seed_id : ℕ) (scalar : ℚ)
    (round_id : ℕ) : List ℕ :=
  key.sign (natDecCodes seed_id ++ 58 :: fmt scalar ++ 58 :: natDecCodes round_id)

/-- The Ed25519 step of `Gatekeeper.verify_update`: check the update's
signature over the payload the gatekeeper rebuilds from the update's own
fields. -/
def gatekeeperSigCheck (key : Ed25519) (fmt : ℚ → List ℕ) (u : Update)
    (signature : List ℕ) : Bool :=
  key.verify signature (payloadBytes fmt u)

/-- **C9.** The client signs exactly the payload the gatekeeper rebuilds:
`sign_update` signs `payloadBytes fmt ⟨seed_id, scalar, round_id⟩` (both
sides use the same `"{seed_id}:{scalar}:{round_id}"` f-string with the same
default float formatting `fmt`), so for any correct Ed25519 implementation
the signature produced by `sign_update` passes the gatekeeper's check on an
update carrying the same three values. -/
theorem sign_verify_roundtrip (key : Ed25519) (fmt : ℚ → List ℕ) (seed_id : ℕ)
    (scalar : ℚ) (round_id : ℕ)
    (hkey : ∀ m, key.verify (key.sign m) m = true) :
    sign_update key fmt seed_id scalar round_id =
      key.sign (payloadBytes fmt ⟨seed_id, scalar, round_id⟩) ∧
    gatekeeperSigCheck key fmt ⟨seed_id, scalar, round_id⟩
      (sign_update key fmt seed_id scalar round_id) = true :=
  ⟨rfl, hkey _⟩

theorem sign_verify_roundtrip_witness :
    (∀ m, (Ed25519.mk (fun x => x) (fun sig m => sig == m)).verify
      ((Ed25519.mk (fun x => x) (fun sig m => sig == m)).sign m) m = true) ∧
    gatekeeperSigCheck (Ed25519.mk (fun x => x) (fun sig m => sig == m))
      (fun _ => [48, 46, 49]) ⟨42, 1/10, 7⟩
      (sign_update (Ed25519.mk (fun x => x) (fun sig m => sig == m))
        (fun _ => [48, 46, 49]) 42 (1/10) 7) = true :=
  have hk : ∀ m, (Ed25519.mk (fun x => x) (fun sig m => sig == m)).verify
      ((Ed25519.mk (fun x => x) (fun sig m => sig == m)).sign m) m = true :=
    fun m => by simp
  ⟨hk, (sign_verify_roundtrip (Ed25519.mk (fun x => x) (fun sig m => sig == m))
    (fun _ => [48, 46, 49]) 42 (1/10) 7 hk).2⟩

/-! ## Binding hash (`ruth/client/attestation.py`) and Claim C10 -/

/-- The payload dictionary consumed by `generate_binding_hash`, restricted
to the three keys the function reads.  A `none` field is a missing key
(`payload.get(key, '')` then yields `''`); a present field carries the code
points of the value's f-string rendering. -/
structure BindingPayload where
  seed_id : Option (List ℕ)
  scalar : Option (List ℕ)
  model_hash : Option (List ℕ)

/-- `generate_binding_hash`: read the three keys with `''` as default, build
`f"{seed_id}:{scalar}:{model_hash}"`, and return the SHA-256 hex digest. -/
def generate_binding_hash (p : BindingPayload) : List ℕ :=
  sha256hex (p.seed_id.getD [] ++ 58 :: p.scalar.getD [] ++ 58 :: p.model_hash.getD [])

theorem bytesToHexCodes_length (bs : List ℕ) :
    (bytesToHexCodes bs).length = 2 * bs.length := by
  induction bs with
  | nil => rfl
  | cons b bs ih => simp [bytesToHexCodes, ih]; omega

theorem hexDigitCode_mem : ∀ v < 16,
    (48 ≤ hexDigitCode v ∧ hexDigitCode v ≤ 57) ∨
    (97 ≤ hexDigitCode v ∧ hexDigitCode v ≤ 102) := by decide

theorem bytesToHexCodes_mem (bs : List ℕ) (h : ∀ b ∈ bs, b < 256) :
    ∀ c ∈ bytesToHexCodes bs, (48 ≤ c ∧ c ≤ 57) ∨ (97 ≤ c ∧ c ≤ 102) := by
  induction bs with
  | nil => intro c hc; exact absurd hc (by simp [bytesToHexCodes])
  | cons b bs ih =>
    intro c hc
    have hb : b < 256 := h b (List.mem_cons_self b bs)
    simp only [bytesToHexCodes, List.mem_cons] at hc
    rcases hc with hc | hc | hc
    · subst hc; exact hexDigitCode_mem (b / 16) (by omega)
    · subst hc; exact hexDigitCode_mem (b % 16) (by omega)
    · exact ih (fun x hx => h x (List.mem_cons_of_mem b hx)) c hc

/-- **C10.** `generate_binding_hash` is total over payload dictionaries:
every missing key among `seed_id`, `scalar`, `model_hash` defaults to the
empty string, the result is the 64-character lowercase-hex SHA-256 digest of
`"{seed_id}:{scalar}:{model_hash}"`, and the empty payload hashes the
string `"::"` (code points `[58, 58]`). -/
theorem generate_binding_hash_spec (p : BindingPayload) :
    generate_binding_hash p =
      sha256hex (p.seed_id.getD [] ++ 58 :: p.scalar.getD [] ++ 58 :: p.model_hash.getD []) ∧
    (generate_binding_hash p).length = 64 ∧
    (∀ c ∈ generate_binding_hash p, (48 ≤ c ∧ c ≤ 57) ∨ (97 ≤ c ∧ c ≤ 102)) ∧
    generate_binding_hash ⟨none, none, none⟩ = sha256hex [58, 58] := by
  refine ⟨rfl, ?_, ?_, rfl⟩
  · show (sha256hex _).length = 64
    unfold sha256hex
    rw [bytesToHexCodes_length, sha256_length]
  · intro c hc
    exact bytesToHexCodes_mem _ (sha256_bytes_lt _) c hc

/-! ## Asynchronous round collector (`ruth/server/async_aggregator.py`) -/

/-- A full `ClientUpdate` wire record, with the fields declared for
`ruth_pb2.ClientUpdate` in `async_aggregator.py`. -/
structure WireUpdate where
  device_id : List ℕ
  round_id : ℕ
  seed_id : ℕ
  scalar : ℚ
  loss : ℚ
  signature : List ℕ
  attestation_token : List ℕ

/-- A length-prefixed byte field of the wire encoding. -/
def encBytes (bs : List ℕ) : List ℕ := bs.length :: bs

/-- Wire encoding of a rational scalar (sign, numerator, denominator). -/
def encRat (q : ℚ) : List ℕ := [if q < 0 then 1 else 0, q.num.natAbs, q.den]

/-- Modelled from the spec: `update.SerializeToString()` — the opaque byte
codec for the `ClientUpdate` record (the generated protobuf module
`proto/ruth_pb2.py` is not part of the source tree; the spec specifies the
record's fields, including `signature` and `attestation_token`, and any
codec from which `ParseFromString` recovers the record serialises all of
them).  Modelled as a length-prefixed concatenation of the fields. -/
def serializeUpdate (u : WireUpdate) : List ℕ :=
  encBytes u.device_id ++ u.round_id :: u.seed_id :: encRat u.scalar ++
    encRat u.loss ++ encBytes u.signature ++ encBytes u.attestation_token

/-- The durable store (Redis) as the list+counter service the collector
uses: the per-round counter keys `ruth:round:r:count` and list keys
`ruth:round:r:updates`, as association lists keyed by the round id (a key
is present exactly when it exists in Redis). -/
structure Store where
  counts : List (ℕ × ℕ)
  updatesMap : List (ℕ × List (List ℕ))

/-- `INCR count(r)`: increment, creating the key at 1 when absent. -/
def incrAssoc : List (ℕ × ℕ) → ℕ → List (ℕ × ℕ)
  | [], r => [(r, 1)]
  | (k, v) :: rest, r =>
    if k = r then (k, v + 1) :: rest else (k, v) :: incrAssoc rest r

/-- `LPUSH updates(r) data`: prepend, creating the key when absent. -/
def lpushAssoc : List (ℕ × List (List ℕ)) → ℕ → List ℕ → List (ℕ × List (List ℕ))
  | [], r, data => [(r, [data])]
  | (k, v) :: rest, r, data =>
    if k = r then (k, data :: v) :: rest else (k, v) :: lpushAssoc rest r data

/-- `AsyncAggregator.submit_update`: serialise the update and atomically
`LPUSH` it onto `updates(round_id)` and `INCR` `count(round_id)` in one
transaction; return `True` on success and `False` when the store
transaction fails (`redis.RedisError`), in which case the store is
unchanged.  No signature or attestation check appears anywhere on this
path. -/
def submit_update (st : Store) (u : WireUpdate) (storeOk : Bool) : Store × Bool :=
  if storeOk then
    ({ counts := incrAssoc st.counts u.round_id,
       updatesMap := lpushAssoc st.updatesMap u.round_id (serializeUpdate u) }, true)
  else (st, false)

/-- `int(await self.redis.get(key) or 0)` for round `r`. -/
def getCount (st : Store) (r : ℕ) : ℕ := (st.counts.lookup r).getD 0

/-- The atomic cleanup pipeline of `_trigger_aggregation`: `DELETE
updates(r); DELETE count(r)`. -/
def deleteRound (st : Store) (r : ℕ) : Store :=
  ⟨st.counts.filter (fun p => p.1 != r), st.updatesMap.filter (fun p => p.1 != r)⟩

/-- `_trigger_aggregation r`: load `LRANGE updates(r) 0 -1` (the input
handed to aggregation), then delete both round keys.  Returns the store
after cleanup and the loaded updates. -/
def triggerAggregation (st : Store) (r : ℕ) : Store × List (List ℕ) :=
  (deleteRound st r, (st.updatesMap.lookup r).getD [])

/-- The body of the scan loop of `_worker_loop` for one counter key `r`:
read the live counter and invoke `_trigger_aggregation` when it has reached
`k_threshold`; the accumulator carries the store and the rounds aggregated
so far. -/
def workerStep (kThreshold : ℕ) (acc : Store × List ℕ) (r : ℕ) : Store × List ℕ :=
  if kThreshold ≤ getCount acc.1 r then ((triggerAggregation acc.1 r).1, acc.2 ++ [r])
  else acc

/-- One scan pass of `_worker_loop`: walk the `ruth:round:*:count` keys
present in the store, read each counter, and invoke `_trigger_aggregation`
for every round whose counter has reached `k_threshold`.  Returns the
resulting store and the rounds for which aggregation was invoked, in
invocation order.  (The store-failure arms, which the code only logs, are
not modelled.) -/
def workerPass (kThreshold : ℕ) (st : Store) : Store × List ℕ :=
  (st.counts.map Prod.fst).foldl (workerStep kThreshold) (st, [])

theorem lookup_filter_ne {β : Type} (l : List (ℕ × β)) (r x : ℕ) (hx : x ≠ r) :
    (l.filter (fun p => p.1 != r)).lookup x = l.lookup x := by
  induction l with
  | nil => rfl
  | cons p rest ih =>
    obtain ⟨k, v⟩ := p
    by_cases hk : k = r
    · subst hk
      have : ¬(x == k) = true := by simpa using hx
      simp [List.filter, List.lookup, this, ih]
    · have hkb : ((k, v).1 != r) = true := by simpa using hk
      by_cases hxk : x = k
      · subst hxk
        simp [List.filter, hkb, List.lookup]
      · have : ¬(x == k) = true := by simpa using hxk
        simp [List.filter, hkb, List.lookup, this, ih]

theorem lookup_filter_self {β : Type} (l : List (ℕ × β)) (r : ℕ) :
    (l.filter (fun p => p.1 != r)).lookup r = none := by
  induction l with
  | nil => rfl
  | cons p rest ih =>
    obtain ⟨k, v⟩ := p
    by_cases hk : k = r
    · subst hk
      simp [List.filter, ih]
    · have hkb : ((k, v).1 != r) = true := by simpa using hk
      have : ¬(r == k) = true := by simpa using fun hc : r = k => hk hc.symm
      simp [List.filter, hkb, List.lookup, this, ih]

theorem getCount_deleteRound_ne (s : Store) (r x : ℕ) (h : x ≠ r) :
    getCount (deleteRound s r) x = getCount s x := by
  unfold getCount deleteRound
  rw [lookup_filter_ne _ _ _ h]

/-- Invariant of the scan fold: the rounds appended to the output and the
final per-round key state, in terms of the snapshot the key list was taken
from. -/
theorem workerFold_spec (K : ℕ) : ∀ (L : List ℕ) (s : Store) (out : List ℕ),
    L.Nodup → ∀ r : ℕ,
      ((L.foldl (workerStep K) (s, out)).2.count r =
        out.count r + (if r ∈ L ∧ K ≤ getCount s r then 1 else 0))
      ∧ ((L.foldl (workerStep K) (s, out)).1.counts.lookup r =
          (if r ∈ L ∧ K ≤ getCount s r then none else s.counts.lookup r))
      ∧ ((L.foldl (workerStep K) (s, out)).1.updatesMap.lookup r =
          (if r ∈ L ∧ K ≤ getCount s r then none else s.updatesMap.lookup r)) := by
  intro L
  induction L with
  | nil =>
    intro s out _ r
    simp
  | cons x T ih =>
    intro s out hnd r
    have hndT : T.Nodup := (List.nodup_cons.mp hnd).2
    have hxT : x ∉ T := (List.nodup_cons.mp hnd).1
    simp only [List.foldl_cons]
    by_cases hc : K ≤ getCount s x
    · have hstep : workerStep K (s, out) x = (deleteRound s x, out ++ [x]) := by
        simp [workerStep, triggerAggregation, hc]
      rw [hstep]
      obtain ⟨hcount, hlookc, hlooku⟩ := ih (deleteRound s x) (out ++ [x]) hndT r
      by_cases hr : r = x
      · subst hr
        have hmem : r ∉ T := hxT
        have hif : ¬(r ∈ T ∧ K ≤ getCount (deleteRound s r) r) := fun hcon => hmem hcon.1
        refine ⟨?_, ?_, ?_⟩
        · rw [hcount, if_neg hif, if_pos ⟨List.mem_cons_self r T, hc⟩]
          simp
        · rw [hlookc, if_neg hif, if_pos ⟨List.mem_cons_self r T, hc⟩]
          exact lookup_filter_self _ _
        · rw [hlooku, if_neg hif, if_pos ⟨List.mem_cons_self r T, hc⟩]
          exact lookup_filter_self _ _
      · have hgc : getCount (deleteRound s x) r = getCount s r :=
          getCount_deleteRound_ne s x r hr
        have hmem : (r ∈ x :: T) ↔ (r ∈ T) := by
          simp [List.mem_cons, hr]
        refine ⟨?_, ?_, ?_⟩
        · rw [hcount, hgc]
          have : (out ++ [x]).count r = out.count r := by
            simp [List.count_append, List.count_singleton, hr]
          rw [this]
          simp only [hmem]
        · rw [hlookc, hgc]
          unfold deleteRound
          simp only [List.lookup]
          rw [lookup_filter_ne _ _ _ hr]
          simp only [hmem]
        · rw [hlooku, hgc]
          unfold deleteRound
          simp only [List.lookup]
          rw [lookup_filter_ne _ _ _ hr]
          simp only [hmem]
    · have hstep : workerStep K (s, out) x = (s, out) := by
        simp [workerStep, hc]
      rw [hstep]
      obtain ⟨hcount, hlookc, hlooku⟩ := ih s out hndT r
      by_cases hr : r = x
      · subst hr
        have hmem : r ∉ T := hxT
        have hif : ¬(r ∈ T ∧ K ≤ getCount s r) := fun hcon => hc hcon.2
        have hif2 : ¬(r ∈ r :: T ∧ K ≤ getCount s r) := fun hcon => hc hcon.2
        exact ⟨by rw [hcount, if_neg hif, if_neg hif2],
          by rw [hlookc, if_neg hif, if_neg hif2],
          by rw [hlooku, if_neg hif, if_neg hif2]⟩
      · have hmem : (r ∈ x :: T) ↔ (r ∈ T) := by
          simp [List.mem_cons, hr]
        exact ⟨by rw [hcount]; simp only [hmem],
          by rw [hlookc]; simp only [hmem],
          by rw [hlooku]; simp only [hmem]⟩

theorem lookup_none_not_mem {β : Type} :
    ∀ (l : List (ℕ × β)) (r : ℕ), l.lookup r = none → r ∉ l.map Prod.fst := by
  intro l
  induction l with
  | nil => intro r _; simp
  | cons p rest ih =>
    intro r h
    obtain ⟨k, v⟩ := p
    simp only [List.lookup] at h
    cases hbeq : (r == k) with
    | true => rw [hbeq] at h; exact absurd h (by simp)
    | false =>
      rw [hbeq] at h
      have hne : r ≠ k := by simpa using hbeq
      simp only [List.map_cons, List.mem_cons]
      rintro (hc | hc)
      · exact hne hc
      · exact ih r h hc

theorem workerFold_out_mem (K : ℕ) :
    ∀ (L : List ℕ) (s : Store) (out : List ℕ) (r : ℕ),
      r ∈ (L.foldl (workerStep K) (s, out)).2 → r ∈ out ∨ r ∈ L := by
  intro L
  induction L with
  | nil =>
    intro s out r h
    exact Or.inl h
  | cons x T ih =>
    intro s out r h
    simp only [List.foldl_cons] at h
    unfold workerStep at h
    by_cases hc : K ≤ getCount s x
    · rw [if_pos hc] at h
      rcases ih _ _ r h with hm | hm
      · rcases List.mem_append.mp hm with hm | hm
        · exact Or.inl hm
        · exact Or.inr (by simp at hm; simp [hm])
      · exact Or.inr (List.mem_cons_of_mem x hm)
    · rw [if_neg hc] at h
      rcases ih _ _ r h with hm | hm
      · exact Or.inl hm
      · exact Or.inr (List.mem_cons_of_mem x hm)

/-! ## Claim C7: quorum trigger -/

/-- **C7.** Over one scan pass of the collector's background loop (with the
per-round count keys pairwise distinct, as they are in the store): a round
is aggregated exactly once when its stored counter has reached the quorum
`K`, and not at all otherwise (in particular, with fewer than `K` accepted
submissions aggregation is not invoked); after aggregation both the
`updates(r)` and `count(r)` keys are deleted; and, the keys being gone, a
further pass does not invoke aggregation for that round again. -/
theorem workerPass_spec (K : ℕ) (st : Store) (r : ℕ)
    (hnd : (st.counts.map Prod.fst).Nodup) :
    ((workerPass K st).2.count r =
      if r ∈ st.counts.map Prod.fst ∧ K ≤ getCount st r then 1 else 0)
    ∧ (r ∈ (workerPass K st).2 ↔ r ∈ st.counts.map Prod.fst ∧ K ≤ getCount st r)
    ∧ (r ∈ (workerPass K st).2 →
        (workerPass K st).1.counts.lookup r = none ∧
        (workerPass K st).1.updatesMap.lookup r = none)
    ∧ (r ∈ (workerPass K st).2 → r ∉ (workerPass K (workerPass K st).1).2) := by
  obtain ⟨hcount, hlookc, hlooku⟩ :=
    workerFold_spec K (st.counts.map Prod.fst) st [] hnd r
  have hcount' : (workerPass K st).2.count r =
      if r ∈ st.counts.map Prod.fst ∧ K ≤ getCount st r then 1 else 0 := by
    unfold workerPass
    rw [hcount]
    simp
  have hmem : r ∈ (workerPass K st).2 ↔
      r ∈ st.counts.map Prod.fst ∧ K ≤ getCount st r := by
    constructor
    · intro hin
      by_contra hcon
      have h0 : (workerPass K st).2.count r = 0 := by rw [hcount', if_neg hcon]
      have h1 : 0 < (workerPass K st).2.count r := List.count_pos_iff.mpr hin
      omega
    · intro hcon
      have h1 : (workerPass K st).2.count r = 1 := by rw [hcount', if_pos hcon]
      exact List.count_pos_iff.mp (by omega)
  have hdel : r ∈ (workerPass K st).2 →
      (workerPass K st).1.counts.lookup r = none ∧
      (workerPass K st).1.updatesMap.lookup r = none := by
    intro hin
    have hcon := hmem.mp hin
    constructor
    · show (workerPass K st).1.counts.lookup r = none
      unfold workerPass
      rw [hlookc, if_pos hcon]
    · show (workerPass K st).1.updatesMap.lookup r = none
      unfold workerPass
      rw [hlooku, if_pos hcon]
  refine ⟨hcount', hmem, hdel, ?_⟩
  intro hin hin2
  have hnone := (hdel hin).1
  have hnotkey : r ∉ (workerPass K st).1.counts.map Prod.fst :=
    lookup_none_not_mem _ r hnone
  rcases workerFold_out_mem K ((workerPass K st).1.counts.map Prod.fst)
      (workerPass K st).1 [] r hin2 with hm | hm
  · exact absurd hm (List.not_mem_nil r)
  · exact hnotkey hm

theorem workerPass_spec_witness :
    ((([(1, 10), (2, 3)] : List (ℕ × ℕ)).map Prod.fst).Nodup) ∧
    ((workerPass 10 ⟨[(1, 10), (2, 3)], [(1, [[7]]), (2, [[9]])]⟩).2.count 1 =
      if 1 ∈ (([(1, 10), (2, 3)] : List (ℕ × ℕ)).map Prod.fst) ∧
        10 ≤ getCount ⟨[(1, 10), (2, 3)], [(1, [[7]]), (2, [[9]])]⟩ 1 then 1 else 0)
    ∧ (1 ∈ (workerPass 10 ⟨[(1, 10), (2, 3)], [(1, [[7]]), (2, [[9]])]⟩).2 ↔
        1 ∈ (([(1, 10), (2, 3)] : List (ℕ × ℕ)).map Prod.fst) ∧
        10 ≤ getCount ⟨[(1, 10), (2, 3)], [(1, [[7]]), (2, [[9]])]⟩ 1)
    ∧ (1 ∈ (workerPass 10 ⟨[(1, 10), (2, 3)], [(1, [[7]]), (2, [[9]])]⟩).2 →
        (workerPass 10 ⟨[(1, 10), (2, 3)], [(1, [[7]]), (2, [[9]])]⟩).1.counts.lookup 1 =
          none ∧
        (workerPass 10 ⟨[(1, 10), (2, 3)], [(1, [[7]]), (2, [[9]])]⟩).1.updatesMap.lookup 1 =
          none)
    ∧ (1 ∈ (workerPass 10 ⟨[(1, 10), (2, 3)], [(1, [[7]]), (2, [[9]])]⟩).2 →
        1 ∉ (workerPass 10
          (workerPass 10 ⟨[(1, 10), (2, 3)], [(1, [[7]]), (2, [[9]])]⟩).1).2) :=
  ⟨by decide, workerPass_spec 10 ⟨[(1, 10), (2, 3)], [(1, [[7]]), (2, [[9]])]⟩ 1 (by decide)⟩

/-! ## Claim C8: `submit_update` performs no verification -/

theorem lpushAssoc_keys (m : List (ℕ × List (List ℕ))) (r : ℕ) (d e : List ℕ) :
    (lpushAssoc m r d).map Prod.fst = (lpushAssoc m r e).map Prod.fst := by
  induction m with
  | nil => rfl
  | cons p rest ih =>
    obtain ⟨k, v⟩ := p
    by_cases hk : k = r <;> simp [lpushAssoc, hk, ih]

/-- **C8 (amended).** `submit_update` performs no signature or attestation
verification: for two updates that differ only in their `signature` and
`attestation_token` fields it returns the same result, touches the same
keys, and leaves identical counters; and it returns `True` exactly when the
atomic append-plus-increment succeeds, regardless of whether the update
would pass the Gatekeeper.  (The bytes appended to `updates(r)` do differ,
because the codec serialises the signature and attestation fields — see the
counterexample.) -/
theorem submit_update_no_verification (st : Store) (u1 u2 : WireUpdate) (storeOk : Bool)
    (hdev : u1.device_id = u2.device_id) (hround : u1.round_id = u2.round_id)
    (hseed : u1.seed_id = u2.seed_id) (hscal : u1.scalar = u2.scalar)
    (hloss : u1.loss = u2.loss) :
    (submit_update st u1 storeOk).2 = (submit_update st u2 storeOk).2
    ∧ (submit_update st u1 storeOk).2 = storeOk
    ∧ (submit_update st u1 storeOk).1.counts = (submit_update st u2 storeOk).1.counts
    ∧ (submit_update st u1 storeOk).1.updatesMap.map Prod.fst =
        (submit_update st u2 storeOk).1.updatesMap.map Prod.fst := by
  unfold submit_update
  cases storeOk
  · exact ⟨rfl, rfl, rfl, rfl⟩
  · rw [hround]
    exact ⟨rfl, rfl, rfl, lpushAssoc_keys _ _ _ _⟩

theorem submit_update_no_verification_witness :
    ((⟨[100], 1, 2, 0, 0, [1], [9]⟩ : WireUpdate).device_id =
        (⟨[100], 1, 2, 0, 0, [2], [8]⟩ : WireUpdate).device_id ∧
      (⟨[100], 1, 2, 0, 0, [1], [9]⟩ : WireUpdate).round_id =
        (⟨[100], 1, 2, 0, 0, [2], [8]⟩ : WireUpdate).round_id ∧
      (⟨[100], 1, 2, 0, 0, [1], [9]⟩ : WireUpdate).seed_id =
        (⟨[100], 1, 2, 0, 0, [2], [8]⟩ : WireUpdate).seed_id ∧
      (⟨[100], 1, 2, 0, 0, [1], [9]⟩ : WireUpdate).scalar =
        (⟨[100], 1, 2, 0, 0, [2], [8]⟩ : WireUpdate).scalar ∧
      (⟨[100], 1, 2, 0, 0, [1], [9]⟩ : WireUpdate).loss =
        (⟨[100], 1, 2, 0, 0, [2], [8]⟩ : WireUpdate).loss) ∧
    ((submit_update ⟨[], []⟩ ⟨[100], 1, 2, 0, 0, [1], [9]⟩ true).2 =
        (submit_update ⟨[], []⟩ ⟨[100], 1, 2, 0, 0, [2], [8]⟩ true).2
      ∧ (submit_update ⟨[], []⟩ ⟨[100], 1, 2, 0, 0, [1], [9]⟩ true).2 = true
      ∧ (submit_update ⟨[], []⟩ ⟨[100], 1, 2, 0, 0, [1], [9]⟩ true).1.counts =
          (submit_update ⟨[], []⟩ ⟨[100], 1, 2, 0, 0, [2], [8]⟩ true).1.counts
      ∧ (submit_update ⟨[], []⟩ ⟨[100], 1, 2, 0, 0, [1], [9]⟩ true).1.updatesMap.map
            Prod.fst =
          (submit_update ⟨[], []⟩ ⟨[100], 1, 2, 0, 0, [2], [8]⟩ true).1.updatesMap.map
            Prod.fst) :=
  ⟨⟨rfl, rfl, rfl, rfl, rfl⟩,
   submit_update_no_verification ⟨[], []⟩ ⟨[100], 1, 2, 0, 0, [1], [9]⟩
     ⟨[100], 1, 2, 0, 0, [2], [8]⟩ true rfl rfl rfl rfl rfl⟩

/-- **C8, counterexample to the claim as stated.**  Two updates that differ
only in their `signature` (and agree on every other field) produce
*different* store writes: the bytes pushed onto `updates(r)` serialise the
signature, so the resulting update lists differ even though the returned
result and the counters coincide. -/
theorem submit_update_writes_differ :
    ((⟨[100], 1, 2, 0, 0, [1], [9]⟩ : WireUpdate).device_id =
        (⟨[100], 1, 2, 0, 0, [2], [9]⟩ : WireUpdate).device_id ∧
      (⟨[100], 1, 2, 0, 0, [1], [9]⟩ : WireUpdate).round_id =
        (⟨[100], 1, 2, 0, 0, [2], [9]⟩ : WireUpdate).round_id ∧
      (⟨[100], 1, 2, 0, 0, [1], [9]⟩ : WireUpdate).seed_id =
        (⟨[100], 1, 2, 0, 0, [2], [9]⟩ : WireUpdate).seed_id ∧
      (⟨[100], 1, 2, 0, 0, [1], [9]⟩ : WireUpdate).scalar =
        (⟨[100], 1, 2, 0, 0, [2], [9]⟩ : WireUpdate).scalar ∧
      (⟨[100], 1, 2, 0, 0, [1], [9]⟩ : WireUpdate).loss =
        (⟨[100], 1, 2, 0, 0, [2], [9]⟩ : WireUpdate).loss ∧
      (⟨[100], 1, 2, 0, 0, [1], [9]⟩ : WireUpdate).attestation_token =
        (⟨[100], 1, 2, 0, 0, [2], [9]⟩ : WireUpdate).attestation_token) ∧
    (submit_update ⟨[], []⟩ ⟨[100], 1, 2, 0, 0, [1], [9]⟩ true).1.updatesMap ≠
      (submit_update ⟨[], []⟩ ⟨[100], 1, 2, 0, 0, [2], [9]⟩ true).1.updatesMap := by
  refine ⟨⟨rfl, rfl, rfl, rfl, rfl, rfl⟩, ?_⟩
  simp [submit_update, lpushAssoc, serializeUpdate, encBytes, encRat]

end Ruth
